import Mathlib

set_option maxRecDepth 8192

namespace Mcwho

/-- Instants are modelled as whole seconds on the local wall clock, measured from
Go's zero `time.Time` (0001-01-01 00:00:00).  `daysFromCivil` is the standard
Gregorian day count (days since 0000-03-01). -/
def daysFromCivil (y m d : Nat) : Nat :=
  let y' := if m ≤ 2 then y - 1 else y
  let era := y' / 400
  let yoe := y' % 400
  let mp := (m + 9) % 12
  let doy := (153 * mp + 2) / 5 + (d - 1)
  let doe := yoe * 365 + yoe / 4 - yoe / 100 + doy
  era * 146097 + doe

/-- Seconds since Go's zero time (0001-01-01 00:00:00 local). -/
def timeOfDate (y mo d h mi s : Nat) : Nat :=
  (daysFromCivil y mo d - 306) * 86400 + h * 3600 + mi * 60 + s

/-- One element of a (linearised) regular-expression pattern: a literal string,
or a greedy repetition of a single-character class (`p*` when `minOne = false`,
`p+` when `minOne = true`), optionally a capturing group. -/
inductive RItem where
  | lit (s : List Char)
  | rep (p : Char → Bool) (minOne : Bool) (cap : Bool)

/-- Length of the maximal run of characters satisfying `p` at the head. -/
def takeRun (p : Char → Bool) : List Char → Nat
  | [] => 0
  | c :: r => if p c then takeRun p r + 1 else 0

/-- Greedy backtracking over the number of characters consumed by a repetition:
try `j` characters first, then fewer, never fewer than `lo`.  `k` matches the
remainder of the pattern. -/
def tryRep (cap : Bool) (k : List Char → Option (List (List Char)))
    (lo : Nat) (input : List Char) : Nat → Option (List (List Char))
  | 0 =>
    if lo = 0 then
      match k input with
      | some caps => some (if cap then [] :: caps else caps)
      | none => none
    else none
  | j + 1 =>
    if j + 1 < lo then none
    else
      match k (input.drop (j + 1)) with
      | some caps => some (if cap then input.take (j + 1) :: caps else caps)
      | none => tryRep cap k lo input j

/-- Leftmost-first (backtracking, greedy) matcher for a linear pattern,
anchored at the start of `input`; trailing input is allowed.  Returns the list
of captured substrings in group order. -/
def mseq : List RItem → List Char → Option (List (List Char))
  | [], _ => some []
  | .lit s :: rest, input =>
    if s.isPrefixOf input then mseq rest (input.drop s.length) else none
  | .rep p minOne cap :: rest, input =>
    tryRep cap (fun i => mseq rest i) (if minOne then 1 else 0) input (takeRun p input)

/-- `[0-9:]` character class. -/
def isDigitColon (c : Char) : Bool := c.isDigit || c == ':'

/-- Go regexp `\s`: `[\t\n\f\r ]`. -/
def isSpaceRE (c : Char) : Bool :=
  c == ' ' || c == '\t' || c == '\n' || c == '\x0c' || c == '\r'

/-- Go regexp `.` (any character but newline). -/
def anyChar (c : Char) : Bool := c != '\n'

def litI (s : String) : RItem := .lit s.data

/-- `logonre`: `^\[([0-9:]+)\] \[.*\]: (\S+)\[.*\] logged in with entity id`. -/
def logonItems : List RItem :=
  [litI "[", .rep isDigitColon true true, litI "] [", .rep anyChar false false,
   litI "]: ", .rep (fun c => !isSpaceRE c) true true, litI "[",
   .rep anyChar false false, litI "] logged in with entity id"]

/-- `logoutre`: `^\[([0-9:]+)\] \[.*\]: (\S+) lost connection:`. -/
def logoutItems : List RItem :=
  [litI "[", .rep isDigitColon true true, litI "] [", .rep anyChar false false,
   litI "]: ", .rep (fun c => !isSpaceRE c) true true, litI " lost connection:"]

/-- Submatches `(time-of-day, username)` of `logonre`, if the line matches. -/
def logonMatch (line : String) : Option (String × String) :=
  match mseq logonItems line.data with
  | some [tod, user] => some (⟨tod⟩, ⟨user⟩)
  | _ => none

def logoutMatch (line : String) : Option (String × String) :=
  match mseq logoutItems line.data with
  | some [tod, user] => some (⟨tod⟩, ⟨user⟩)
  | _ => none

/-- `datere`: `(\d+-\d+-\d+)`, unanchored leftmost match. -/
def dateItems : List RItem :=
  [.rep Char.isDigit true true, .lit ['-'], .rep Char.isDigit true true,
   .lit ['-'], .rep Char.isDigit true true]

def findDateAux : List Char → Option String
  | [] => none
  | c :: rest =>
    match mseq dateItems (c :: rest) with
    | some [a, b, d] => some ⟨a ++ '-' :: b ++ '-' :: d⟩
    | _ => findDateAux rest

/-- Leftmost match of `datere` in a path, as `FindStringSubmatch` returns it. -/
def findDate (s : String) : Option String := findDateAux s.data

def digitsVal (l : List Char) : Nat := l.foldl (fun a c => a * 10 + (c.toNat - 48)) 0

/-- Parse exactly `n` leading digits (Go's fixed-width numeric layout fields). -/
def parseFixed (n : Nat) (l : List Char) : Option (Nat × List Char) :=
  let ds := l.take n
  if ds.length = n ∧ ds.all Char.isDigit then some (digitsVal ds, l.drop n) else none

/-- Parse one or two leading digits (Go's non-fixed hour field `15`). -/
def parseHour : List Char → Option (Nat × List Char)
  | [] => none
  | [c] => if c.isDigit then some (digitsVal [c], []) else none
  | c1 :: c2 :: r =>
    if c1.isDigit then
      if c2.isDigit then some (digitsVal [c1, c2], r) else some (digitsVal [c1], c2 :: r)
    else none

def expectChar (c : Char) : List Char → Option (List Char)
  | [] => none
  | x :: r => if x = c then some r else none

def isLeap (y : Nat) : Bool := (y % 4 == 0 && y % 100 != 0) || y % 400 == 0

def daysInMonth (y m : Nat) : Nat :=
  if m = 2 then (if isLeap y then 29 else 28)
  else if m = 4 ∨ m = 6 ∨ m = 9 ∨ m = 11 then 30
  else 31

/-- `parseSince`: parse `"YYYY-MM-DD H:MM:SS"` with Go's layout
`"2006-01-02 15:04:05 MST"` (the code appends the local zone abbreviation,
which the layout's `MST` consumes; both cancel out in the model).  Out-of-range
fields or leftover input fail, exactly as `time.Parse` does. -/
def parseSince (s : String) : Option Nat := do
  let (y, r) ← parseFixed 4 s.data
  let r ← expectChar '-' r
  let (mo, r) ← parseFixed 2 r
  let r ← expectChar '-' r
  let (d, r) ← parseFixed 2 r
  let r ← expectChar ' ' r
  let (h, r) ← parseHour r
  let r ← expectChar ':' r
  let (mi, r) ← parseFixed 2 r
  let r ← expectChar ':' r
  let (sec, r) ← parseFixed 2 r
  if r = [] ∧ 1 ≤ mo ∧ mo ≤ 12 ∧ 1 ≤ d ∧ d ≤ daysInMonth y mo ∧ h ≤ 23 ∧ mi ≤ 59 ∧ sec ≤ 59
  then some (timeOfDate y mo d h mi sec)
  else none

/-- A presence event as sent over `conch`/`disch`. -/
inductive McEvent where
  | login (user : String) (t : Nat)
  | logout (user : String) (t : Nat)
deriving DecidableEq

/-- The per-line body of `readLog`'s scan loop: try `logonre` first, then
`logoutre`; on a match, assemble `date ++ " " ++ tod`, parse it, and send the
event.  The parse error is discarded (`since, _ := parseSince(...)`), so a
failed parse yields the zero `time.Time`, modelled as `0`. -/
def extractEvent (date : String) (line : String) : Option McEvent :=
  match logonMatch line with
  | some (tod, user) => some (.login user ((parseSince (date ++ " " ++ tod)).getD 0))
  | none =>
    match logoutMatch line with
    | some (tod, user) => some (.logout user ((parseSince (date ++ " " ++ tod)).getD 0))
    | none => none

/-- `userList`: a Go `map[string]mcuser`, modelled as an association list of
`(name, since)` pairs in iteration order; insertion replaces in place, a fresh
key is appended. -/
abbrev userList := List (String × Nat)

/-- Go map assignment `m[k] = v`. -/
def ulInsert (l : userList) (k : String) (v : Nat) : userList :=
  if l.any (fun p => p.1 == k) then l.map (fun p => if p.1 == k then (k, v) else p)
  else l ++ [(k, v)]

/-- Go map `delete(m, k)`. -/
def ulDelete (l : userList) (k : String) : userList := l.filter (fun p => p.1 ≠ k)

/-- The presence tables owned by `main`'s select loop. -/
structure TrackerState where
  usersOn : userList
  usersOff : userList
deriving DecidableEq

/-- One step of `main`'s select loop: a `conch` event deletes from `usersOff`
then upserts into `usersOn`; a `disch` event symmetrically. -/
def applyEvent (st : TrackerState) : McEvent → TrackerState
  | .login u t => ⟨ulInsert st.usersOn u t, ulDelete st.usersOff u⟩
  | .logout u t => ⟨ulDelete st.usersOn u, ulInsert st.usersOff u t⟩

/-- Run the select loop over a finite event sequence from the empty tables. -/
def applyEvents (es : List McEvent) : TrackerState := es.foldl applyEvent ⟨[], []⟩

/-- `getHowLong` after `dur := time.Now().Sub(ts)`, for a non-negative duration
in whole seconds: Go's `int(dur.Hours())/24`, `int(dur.Hours())%24`,
`int(dur.Minutes())%60`, `int(dur.Seconds())%60` and the four appends. -/
def howLongOfDur (dur : Nat) : String :=
  let days := dur / 3600 / 24
  let hours := dur / 3600 % 24
  let mins := dur / 60 % 60
  let secs := dur % 60
  let s1 := if days > 0 then toString days ++ "d " else ""
  let s2 := if hours > 0 then s1 ++ toString hours ++ "h " else s1
  let s3 := if mins > 0 then s2 ++ toString mins ++ "m" else s2
  if s3.length = 0 then s3 ++ toString secs ++ "s" else s3

/-- `getHowLong(ts)` with the ambient `time.Now()` made explicit. -/
def getHowLong (now ts : Nat) : String := howLongOfDur (now - ts)

/-- `getDisplay`, with the ambient `time.Now()` made explicit and map iteration
order given by list order. -/
def getDisplay (now : Nat) (usersOn usersOff : userList) : String :=
  let userInfo := usersOn.map (fun u => u.1 ++ " on for " ++ getHowLong now u.2)
  let count := usersOn.length
  let hdr :=
    if count < 1 then
      let lastUser := usersOff.foldl (fun acc u => if acc.2 < u.2 then u else acc) ("", 0)
      let howLong := getHowLong now lastUser.2
      let nm := if lastUser.2 = 0 then "nobody" else lastUser.1
      let hl := if lastUser.2 = 0 then "ever" else howLong
      "No players for " ++ hl ++ " (" ++ nm ++ ")"
    else if count = 1 then "1 player: "
    else toString count ++ " players: "
  hdr ++ String.intercalate ", " userInfo

/-- `path.Ext` on the characters of a name: the suffix beginning at the final
dot, empty if there is none. -/
def extChars : List Char → List Char
  | [] => []
  | c :: rest =>
    match extChars rest with
    | [] => if c = '.' then c :: rest else []
    | d :: es => d :: es

/-- `path.Ext`. -/
def pathExt (s : String) : String := ⟨extChars s.data⟩

def gzipext : String := ".gz"

/-- What `getLogReader` seeks to and stores back into `pos`: a gzip source is
read through `gzip.NewReader` (failing if the stream is corrupt), a plain file
resets `pos` to 0 when the observed size is smaller than the stored offset and
then starts reading at `pos`. -/
inductive ReaderKind where
  | gzipReader
  | plainAt (offset : Nat)
deriving DecidableEq

def getLogReader (isGz : Bool) (gzipOk : Bool) (size pos : Nat) :
    Except String (ReaderKind × Nat) :=
  if isGz then
    if gzipOk then .ok (.gzipReader, pos) else .error "gzip: invalid header"
  else
    let pos2 := if size < pos then 0 else pos
    .ok (.plainAt pos2, pos2)

/-- The outside world as the `Mcwho` goroutine observes it: the outcomes of
`fsnotify.NewWatcher`, `watcher.Watch`, `ioutil.ReadDir` (which returns the
directory entries sorted by filename), and of `readLog` on each file (the
events a successful pass sends, or the open/decompress error it returns). -/
structure Env where
  newWatcher : Except String Unit
  watch : Except String Unit
  readDir : Except String (List String)
  readLog : String → Except String (List McEvent)

/-- Everything `Mcwho` emits, in order: `readLog` passes over a file, events on
`conch`/`disch`, errors on `errch`, and `log.Fatal` process aborts. -/
inductive Out where
  | read (file : String)
  | event (e : McEvent)
  | errSend (e : String)
  | fatal (e : String)
deriving DecidableEq

/-- How a run of the model ends: the goroutine returned, `log.Fatal` killed the
process, or the goroutine is suspended in `select` waiting on the watcher. -/
inductive Term where
  | returned
  | fatalled
  | suspended
deriving DecidableEq

/-- `setupWatcher`: on any error from `NewWatcher` or `Watch` it calls
`log.Fatal`; otherwise it returns the watcher and a nil error. -/
def setupWatcher (env : Env) : Option String :=
  match env.newWatcher with
  | .error e => some e
  | .ok _ =>
    match env.watch with
    | .error e => some e
    | .ok _ => none

/-- The historical backfill loop over the directory listing: skip entries whose
extension is not `.gz`; read each archive, and on a `readLog` error send it on
`errch` and return (the `Bool` records whether the loop completed). -/
def backfill (env : Env) : List String → List Out × Bool
  | [] => ([], true)
  | f :: rest =>
    if pathExt f ≠ gzipext then backfill env rest
    else
      match env.readLog f with
      | .error e => ([.read f, .errSend e], false)
      | .ok evs =>
        let (t, ok) := backfill env rest
        (.read f :: (evs.map .event ++ t), ok)

/-- The live-tail loop: read `latest.log` (on error, send it and return), then
block in `select`; a watcher event loops again, a watcher error is sent on
`errch` — and, because Go's `break` inside `select` leaves only the `select`,
the loop then continues.  `notifs` is the finite prefix of watcher activity the
run observes; when it is exhausted the goroutine is suspended in `select`. -/
def liveLoop (env : Env) : List (Except String Unit) → List Out × Term
  | [] =>
    match env.readLog "latest.log" with
    | .error e => ([.read "latest.log", .errSend e], .returned)
    | .ok evs => (Out.read "latest.log" :: evs.map .event, .suspended)
  | n :: rest =>
    match env.readLog "latest.log" with
    | .error e => ([.read "latest.log", .errSend e], .returned)
    | .ok evs =>
      let pre := Out.read "latest.log" :: evs.map .event
      match n with
      | .ok _ =>
        let (t, tm) := liveLoop env rest
        (pre ++ t, tm)
      | .error e =>
        let (t, tm) := liveLoop env rest
        (pre ++ .errSend e :: t, tm)

/-- The `Mcwho` goroutine: set up the watcher (fatal on failure), list the log
directory (error to `errch` on failure), backfill the `.gz` archives, then tail
`latest.log`. -/
def mcwho (env : Env) (notifs : List (Except String Unit)) : List Out × Term :=
  match setupWatcher env with
  | some e => ([.fatal e], .fatalled)
  | none =>
    match env.readDir with
    | .error e => ([.errSend e], .returned)
    | .ok files =>
      let (bt, ok) := backfill env files
      if ok then
        let (lt, tm) := liveLoop env notifs
        (bt ++ lt, tm)
      else (bt, .returned)

/-- The files a trace touches, in order. -/
def readsOf (t : List Out) : List String :=
  t.filterMap (fun o => match o with | .read f => some f | _ => none)

theorem str_append_assoc (a b c : String) : a ++ b ++ c = a ++ (b ++ c) := by
  rcases a with ⟨la⟩; rcases b with ⟨lb⟩; rcases c with ⟨lc⟩
  show String.mk ((la ++ lb) ++ lc) = String.mk (la ++ (lb ++ lc))
  rw [List.append_assoc]

theorem str_append_empty (a : String) : a ++ "" = a := by
  rcases a with ⟨la⟩
  show String.mk (la ++ []) = String.mk la
  rw [List.append_nil]

/-- C8: a plain-file read resets the cursor exactly when the observed size is
smaller than the stored offset; otherwise the read starts at the stored
offset. -/
theorem c8_cursor_truncation_reset (size pos : Nat) :
    (size < pos → getLogReader false true size pos = .ok (.plainAt 0, 0)) ∧
    (pos ≤ size → getLogReader false true size pos = .ok (.plainAt pos, pos)) := by
  constructor
  · intro h
    simp [getLogReader, h]
  · intro h
    simp [getLogReader, Nat.not_lt.mpr h]

theorem c8_cursor_truncation_reset_witness :
    getLogReader false true 200 500 = .ok (.plainAt 0, 0) ∧
    getLogReader false true 200 100 = .ok (.plainAt 100, 100) :=
  ⟨(c8_cursor_truncation_reset 200 500).1 (by decide),
   (c8_cursor_truncation_reset 200 100).2 (by decide)⟩

/-- C5: the sample login line, read with resolved log date `2014-03-02`,
produces exactly the `Login` event for `"Steve"` at the local instant
2014-03-02T12:01:15. -/
theorem c5_login_line_extraction :
    extractEvent "2014-03-02"
      "[12:01:15] [Server thread/INFO]: Steve[/127.0.0.1:5000] logged in with entity id 123"
      = some (.login "Steve" (timeOfDate 2014 3 2 12 1 15)) := by decide

/-- C2 counterexample: the line `[12:01] ... logged in with entity id 123`
matches the login pattern, its assembled timestamp `2014-03-02 12:01` fails to
parse, and yet the extractor emits a `Login` event (with the zero time) instead
of dropping it. -/
theorem c2_counterexample :
    parseSince "2014-03-02 12:01" = none ∧
    extractEvent "2014-03-02"
      "[12:01] [Server thread/INFO]: Steve[/127.0.0.1:5000] logged in with entity id 123"
      = some (.login "Steve" 0) := by decide

/-- C2 (amended): when a line matches the login or the logout pattern but the
assembled timestamp fails to parse, the extractor still emits the event, with
the zero `time.Time` as its instant; the parse failure is never propagated as
an error. -/
theorem c2_parse_failure_event_still_emitted (date line tod user : String) :
    (logonMatch line = some (tod, user) → parseSince (date ++ " " ++ tod) = none →
      extractEvent date line = some (.login user 0)) ∧
    (logonMatch line = none → logoutMatch line = some (tod, user) →
      parseSince (date ++ " " ++ tod) = none →
      extractEvent date line = some (.logout user 0)) := by
  constructor
  · intro h1 h2
    simp [extractEvent, h1, h2]
  · intro h0 h1 h2
    simp [extractEvent, h0, h1, h2]

theorem c2_parse_failure_event_still_emitted_witness :
    extractEvent "2014-03-02"
      "[12:02] [Server thread/INFO]: Alex[/127.0.0.1:5001] logged in with entity id 124"
      = some (.login "Alex" 0) :=
  (c2_parse_failure_event_still_emitted "2014-03-02"
      "[12:02] [Server thread/INFO]: Alex[/127.0.0.1:5001] logged in with entity id 124"
      "12:02" "Alex").1 (by decide) (by decide)

/-- Spec-side duration format (the claim's wording): the non-zero units among
days/hours/minutes, descending, joined by single spaces with no leading or
trailing whitespace, and the seconds form exactly when all three are zero. -/
def joinUnits : List String → String
  | [] => ""
  | [u] => u
  | u :: rest => u ++ " " ++ joinUnits rest

def specHowLong (dur : Nat) : String :=
  let days := dur / 3600 / 24
  let hours := dur / 3600 % 24
  let mins := dur / 60 % 60
  let secs := dur % 60
  let units :=
    (if days > 0 then [toString days ++ "d"] else []) ++
    (if hours > 0 then [toString hours ++ "h"] else []) ++
    (if mins > 0 then [toString mins ++ "m"] else [])
  if units = [] then toString secs ++ "s" else joinUnits units

theorem str_empty_append (a : String) : "" ++ a = a := by
  rcases a with ⟨la⟩
  show String.mk ([] ++ la) = String.mk la
  rw [List.nil_append]

theorem strD2 : "d" ++ " " = "d " := by decide

theorem strH2 : "h" ++ " " = "h " := by decide

theorem strDsp (x : String) : "d" ++ (" " ++ x) = "d " ++ x := by
  rw [← str_append_assoc, strD2]

theorem strHsp (x : String) : "h" ++ (" " ++ x) = "h " ++ x := by
  rw [← str_append_assoc, strH2]

theorem lenLitD : String.length "d " = 2 := rfl

theorem lenLitH : String.length "h " = 2 := rfl

theorem lenLitM : String.length "m" = 1 := rfl

/-- C6 counterexample: an elapsed time of exactly 2 hours renders as `"2h "`,
with a trailing space, not `"2h"`. -/
theorem c6_counterexample :
    howLongOfDur 7200 = "2h " ∧ howLongOfDur 7200 ≠ "2h" := by decide

/-- C6 (amended): the rendered string is the claim's
units-with-non-zero-magnitude string, except that a trailing space remains
whenever the minutes component is zero but days or hours are not; the seconds
form appears exactly when days, hours and minutes are all zero. -/
theorem c6_duration_format (dur : Nat) :
    (0 < dur / 60 % 60 ∨ dur / 3600 = 0 → howLongOfDur dur = specHowLong dur) ∧
    (dur / 60 % 60 = 0 ∧ 0 < dur / 3600 → howLongOfDur dur = specHowLong dur ++ " ") := by
  rcases Nat.eq_zero_or_pos (dur / 3600 / 24) with hd | hd <;>
    rcases Nat.eq_zero_or_pos (dur / 3600 % 24) with hh | hh <;>
    rcases Nat.eq_zero_or_pos (dur / 60 % 60) with hm | hm <;>
    refine ⟨fun hcond => ?_, fun hcond => ?_⟩ <;>
    first
      | exact absurd hcond (by omega)
      | simp [howLongOfDur, specHowLong, joinUnits, hd, hh, hm, str_append_assoc,
          strDsp, strHsp, strD2, strH2, str_empty_append, lenLitD, lenLitH, lenLitM]

theorem c6_duration_format_witness :
    howLongOfDur 45 = specHowLong 45 ∧ howLongOfDur 125 = specHowLong 125 ∧
    howLongOfDur 7505 = specHowLong 7505 ∧ howLongOfDur 86580 = specHowLong 86580 ∧
    howLongOfDur 7200 = specHowLong 7200 ++ " " :=
  ⟨(c6_duration_format 45).1 (by decide), (c6_duration_format 125).1 (by decide),
   (c6_duration_format 7505).1 (by decide), (c6_duration_format 86580).1 (by decide),
   (c6_duration_format 7200).2 (by decide)⟩

/-- The key set (name column) of a user table. -/
def keys (l : userList) : List String := l.map Prod.fst

theorem keys_map_upsert (l : userList) (k : String) (v : Nat) :
    (l.map (fun p => if p.1 == k then (k, v) else p)).map Prod.fst = l.map Prod.fst := by
  induction l with
  | nil => rfl
  | cons p rest ih =>
    simp only [List.map_cons, ih, List.cons.injEq, and_true]
    by_cases hp : (p.1 == k) = true
    · rw [if_pos hp]
      exact (eq_of_beq hp).symm
    · rw [if_neg hp]

theorem keys_ulInsert (l : userList) (k : String) (v : Nat) :
    keys (ulInsert l k v)
      = if l.any (fun p => p.1 == k) then keys l else keys l ++ [k] := by
  unfold ulInsert keys
  by_cases h : l.any (fun p => p.1 == k) = true
  · rw [if_pos h, if_pos h, keys_map_upsert]
  · rw [if_neg h, if_neg h, List.map_append]
    rfl

theorem mem_keys_ulInsert (l : userList) (k : String) (v : Nat) (u : String) :
    u ∈ keys (ulInsert l k v) ↔ u ∈ keys l ∨ u = k := by
  rw [keys_ulInsert]
  by_cases h : l.any (fun p => p.1 == k) = true
  · rw [if_pos h]
    have hk : k ∈ keys l := by
      rcases List.any_eq_true.mp h with ⟨p, hp, he⟩
      exact List.mem_map.mpr ⟨p, hp, eq_of_beq he⟩
    constructor
    · exact Or.inl
    · rintro (hu | rfl)
      · exact hu
      · exact hk
  · rw [if_neg h, List.mem_append, List.mem_singleton]

theorem mem_keys_ulDelete (l : userList) (k u : String) :
    u ∈ keys (ulDelete l k) ↔ u ∈ keys l ∧ u ≠ k := by
  unfold ulDelete keys
  simp only [List.mem_map, List.mem_filter, decide_eq_true_eq]
  constructor
  · rintro ⟨p, ⟨hp, hne⟩, rfl⟩
    exact ⟨⟨p, hp, rfl⟩, hne⟩
  · rintro ⟨⟨p, hp, rfl⟩, hne⟩
    exact ⟨p, ⟨hp, hne⟩, rfl⟩

/-- The presence-table invariant: no username is a key of both tables. -/
def noBoth (st : TrackerState) : Prop :=
  ∀ u, u ∈ keys st.usersOn → u ∉ keys st.usersOff

theorem noBoth_applyEvent (st : TrackerState) (e : McEvent) (h : noBoth st) :
    noBoth (applyEvent st e) := by
  cases e with
  | login u t =>
    intro x hx
    simp only [applyEvent] at hx ⊢
    rw [mem_keys_ulInsert] at hx
    rw [mem_keys_ulDelete]
    rintro ⟨hoff, hne⟩
    rcases hx with hx | rfl
    · exact h x hx hoff
    · exact hne rfl
  | logout u t =>
    intro x hx
    simp only [applyEvent] at hx ⊢
    rw [mem_keys_ulDelete] at hx
    rw [mem_keys_ulInsert]
    rintro (hoff | rfl)
    · exact h x hx.1 hoff
    · exact hx.2 rfl

theorem noBoth_foldl (es : List McEvent) :
    ∀ st, noBoth st → noBoth (es.foldl applyEvent st) := by
  induction es with
  | nil => exact fun st h => h
  | cons e rest ih => exact fun st h => ih _ (noBoth_applyEvent st e h)

/-- C1: after any finite event sequence applied by the select loop from empty
tables, no username is a key of both the online and the offline table. -/
theorem c1_no_user_in_both_tables (es : List McEvent) (u : String) :
    ¬(u ∈ keys (applyEvents es).usersOn ∧ u ∈ keys (applyEvents es).usersOff) := by
  rintro ⟨h1, h2⟩
  have h0 : noBoth ⟨[], []⟩ := by
    intro x hx
    cases hx
  exact noBoth_foldl es _ h0 u h1 h2

theorem c1_no_user_in_both_tables_witness :
    ¬("a" ∈ keys (applyEvents [.login "a" 5, .logout "b" 6]).usersOn ∧
      "a" ∈ keys (applyEvents [.login "a" 5, .logout "b" 6]).usersOff) :=
  c1_no_user_in_both_tables [.login "a" 5, .logout "b" 6] "a"

/-- Nodup keys: the well-formedness a Go map always has. -/
def NK (l : userList) : Prop := (keys l).Nodup

theorem NK_ulInsert (l : userList) (k : String) (v : Nat) (h : NK l) :
    NK (ulInsert l k v) := by
  unfold NK
  rw [keys_ulInsert]
  by_cases hc : l.any (fun p => p.1 == k) = true
  · rw [if_pos hc]
    exact h
  · rw [if_neg hc]
    have hk : k ∉ keys l := by
      intro hmem
      rcases List.mem_map.mp hmem with ⟨p, hp, hq⟩
      exact hc (List.any_eq_true.mpr ⟨p, hp, beq_iff_eq.mpr hq⟩)
    refine List.Nodup.append h (List.nodup_singleton k) ?_
    intro a ha hb
    rw [List.mem_singleton] at hb
    subst hb
    exact hk ha

theorem NK_ulDelete (l : userList) (k : String) (h : NK l) : NK (ulDelete l k) := by
  unfold NK
  have hs : List.Sublist (keys (ulDelete l k)) (keys l) :=
    (List.filter_sublist l).map Prod.fst
  exact List.Nodup.sublist hs h

theorem NK_applyEvent (st : TrackerState) (e : McEvent)
    (h1 : NK st.usersOn) (h2 : NK st.usersOff) :
    NK (applyEvent st e).usersOn ∧ NK (applyEvent st e).usersOff := by
  cases e with
  | login u t => exact ⟨NK_ulInsert _ u t h1, NK_ulDelete _ u h2⟩
  | logout u t => exact ⟨NK_ulDelete _ u h1, NK_ulInsert _ u t h2⟩

theorem NK_foldl (es : List McEvent) :
    ∀ st, NK st.usersOn → NK st.usersOff →
      NK (es.foldl applyEvent st).usersOn ∧ NK (es.foldl applyEvent st).usersOff := by
  induction es with
  | nil => exact fun st h1 h2 => ⟨h1, h2⟩
  | cons e rest ih =>
    intro st h1 h2
    have h := NK_applyEvent st e h1 h2
    exact ih _ h.1 h.2

theorem NK_applyEvents (es : List McEvent) :
    NK (applyEvents es).usersOn ∧ NK (applyEvents es).usersOff :=
  NK_foldl es ⟨[], []⟩ List.nodup_nil List.nodup_nil

theorem filter_key_eq_nil (l : userList) (u : String) (h : u ∉ keys l) :
    l.filter (fun p => p.1 == u) = [] := by
  rw [List.filter_eq_nil_iff]
  intro p hp hb
  exact h (List.mem_map.mpr ⟨p, hp, eq_of_beq hb⟩)

theorem filter_map_upsert (l : userList) (u : String) (v : Nat) :
    u ∈ keys l → NK l →
    (l.map (fun p => if p.1 == u then (u, v) else p)).filter (fun p => p.1 == u)
      = [(u, v)] := by
  induction l with
  | nil =>
    intro h _
    cases h
  | cons p rest ih =>
    intro h hnk
    unfold NK keys at hnk
    rw [List.map_cons, List.nodup_cons] at hnk
    rw [List.map_cons]
    by_cases hb : (p.1 == u) = true
    · rw [if_pos hb, List.filter_cons]
      have hu : (((u, v) : String × Nat).1 == u) = true := by simp
      rw [if_pos hu]
      have hrest : u ∉ keys rest := by
        rw [← eq_of_beq hb]
        exact hnk.1
      have hnil : (rest.map (fun p => if p.1 == u then (u, v) else p)).filter
          (fun p => p.1 == u) = [] := by
        apply filter_key_eq_nil
        rw [show keys (rest.map fun p => if p.1 == u then (u, v) else p)
              = keys rest from keys_map_upsert rest u v]
        exact hrest
      rw [hnil]
    · rw [if_neg hb, List.filter_cons, if_neg (by simp only [hb, Bool.false_eq_true, not_false_eq_true])]
      have hmem : u ∈ keys rest := by
        unfold keys at h
        rw [List.map_cons, List.mem_cons] at h
        rcases h with rfl | h
        · exact absurd (by simp : (p.1 == p.1) = true) hb
        · exact h
      exact ih hmem hnk.2

theorem filter_ulInsert (l : userList) (u : String) (v : Nat) (h : NK l) :
    (ulInsert l u v).filter (fun p => p.1 == u) = [(u, v)] := by
  unfold ulInsert
  by_cases hc : l.any (fun p => p.1 == u) = true
  · rw [if_pos hc]
    have hmem : u ∈ keys l := by
      rcases List.any_eq_true.mp hc with ⟨p, hp, he⟩
      exact List.mem_map.mpr ⟨p, hp, eq_of_beq he⟩
    exact filter_map_upsert l u v hmem h
  · rw [if_neg hc, List.filter_append]
    have hnil : l.filter (fun p => p.1 == u) = [] := by
      apply filter_key_eq_nil
      intro hmem
      rcases List.mem_map.mp hmem with ⟨p, hp, hq⟩
      exact hc (List.any_eq_true.mpr ⟨p, hp, beq_iff_eq.mpr hq⟩)
    rw [hnil, List.nil_append, List.filter_cons]
    norm_num

/-- C9: a second `Login` for the same user overwrites the `since` of the
first, leaving exactly one online entry for that user, carrying the second
timestamp. -/
theorem c9_second_login_overwrites (es : List McEvent) (u : String) (t1 t2 : Nat) :
    (applyEvents (es ++ [.login u t1, .login u t2])).usersOn.filter
      (fun p => p.1 == u) = [(u, t2)] := by
  unfold applyEvents
  rw [List.foldl_append]
  have hNK := NK_applyEvents es
  unfold applyEvents at hNK
  show ((applyEvent (applyEvent (es.foldl applyEvent ⟨[], []⟩) (.login u t1))
      (.login u t2)).usersOn.filter (fun p => p.1 == u)) = [(u, t2)]
  simp only [applyEvent]
  exact filter_ulInsert _ u t2 (NK_ulInsert _ u t1 hNK.1)

/-- The record `getDisplay`'s empty-online branch selects: the fold of
`user.since.After(lastUser.since)` over the offline table, from the zero
`mcuser`. -/
def lastOf (off : userList) : String × Nat :=
  off.foldl (fun acc u => if acc.2 < u.2 then u else acc) ("", 0)

theorem foldl_last_spec (off : userList) :
    ∀ acc : String × Nat,
      (off.foldl (fun acc u => if acc.2 < u.2 then u else acc) acc = acc ∨
        off.foldl (fun acc u => if acc.2 < u.2 then u else acc) acc ∈ off) ∧
      acc.2 ≤ (off.foldl (fun acc u => if acc.2 < u.2 then u else acc) acc).2 ∧
      ∀ p ∈ off, p.2 ≤ (off.foldl (fun acc u => if acc.2 < u.2 then u else acc) acc).2 := by
  induction off with
  | nil =>
    intro acc
    exact ⟨Or.inl rfl, Nat.le_refl _, fun p hp => absurd hp (List.not_mem_nil p)⟩
  | cons q rest ih =>
    intro acc
    rw [List.foldl_cons]
    set acc2 := if acc.2 < q.2 then q else acc with hacc2
    obtain ⟨hm, hle, hall⟩ := ih acc2
    have hacc_le : acc.2 ≤ acc2.2 := by
      rw [hacc2]
      by_cases hlt : acc.2 < q.2
      · rw [if_pos hlt]
        exact Nat.le_of_lt hlt
      · rw [if_neg hlt]
    have hq_le : q.2 ≤ acc2.2 := by
      rw [hacc2]
      by_cases hlt : acc.2 < q.2
      · rw [if_pos hlt]
      · rw [if_neg hlt]
        omega
    refine ⟨?_, Nat.le_trans hacc_le hle, ?_⟩
    · rcases hm with hm | hm
      · rw [hm, hacc2]
        by_cases hlt : acc.2 < q.2
        · rw [if_pos hlt]
          exact Or.inr (List.mem_cons_self q rest)
        · rw [if_neg hlt]
          exact Or.inl rfl
      · exact Or.inr (List.mem_cons_of_mem q hm)
    · intro p hp
      rcases List.mem_cons.mp hp with rfl | hp
      · exact Nat.le_trans hq_le hle
      · exact hall p hp

theorem getDisplay_empty_on (now : Nat) (off : userList) :
    getDisplay now [] off =
      if (lastOf off).2 = 0 then "No players for ever (nobody)"
      else "No players for " ++ getHowLong now (lastOf off).2 ++ " ("
        ++ (lastOf off).1 ++ ")" := by
  unfold getDisplay lastOf
  have hi : String.intercalate ", " ([] : List String) = "" := rfl
  simp only [List.map_nil, List.length_nil, hi, str_append_empty]
  rw [if_pos (by omega : (0 : Nat) < 1)]
  by_cases hc : (List.foldl (fun acc u => if acc.2 < u.2 then u else acc) ("", 0) off).2 = 0
  · rw [if_pos hc, if_pos hc, if_pos hc]
    decide
  · rw [if_neg hc, if_neg hc, if_neg hc]

/-- C7 counterexample: with an empty online table and the non-empty offline
table `{"a" ↦ zero time}`, the renderer prints the sentinel
`"No players for ever (nobody)"`, not a header naming the maximal offline
record `"a"`. -/
theorem c7_counterexample :
    getDisplay 100 [] [("a", 0)] = "No players for ever (nobody)" ∧
    getDisplay 100 [] [("a", 0)] ≠ "No players for " ++ getHowLong 100 0 ++ " (a)" := by
  decide

/-- C7 (amended): with an empty online table, if the maximal offline `since`
is non-zero the header names a record attaining that maximum; if the offline
table is empty, or every offline `since` is the zero time, the sentinel
`"No players for ever (nobody)"` is rendered. -/
theorem c7_no_players_header (now : Nat) (off : userList) :
    ((lastOf off).2 ≠ 0 →
      lastOf off ∈ off ∧ (∀ p ∈ off, p.2 ≤ (lastOf off).2) ∧
      getDisplay now [] off
        = "No players for " ++ getHowLong now (lastOf off).2 ++ " ("
          ++ (lastOf off).1 ++ ")") ∧
    ((lastOf off).2 = 0 → getDisplay now [] off = "No players for ever (nobody)") := by
  obtain ⟨hm, hle, hall⟩ := foldl_last_spec off ("", 0)
  constructor
  · intro hnz
    have hmem : lastOf off ∈ off := by
      rcases hm with hm | hm
      · exfalso
        apply hnz
        show (off.foldl (fun acc u => if acc.2 < u.2 then u else acc) ("", 0)).2 = 0
        rw [hm]
      · exact hm
    exact ⟨hmem, hall, by rw [getDisplay_empty_on, if_neg hnz]⟩
  · intro hz
    rw [getDisplay_empty_on, if_pos hz]

theorem c7_no_players_header_witness :
    getDisplay 50 [] [("a", 10), ("b", 30)]
      = "No players for " ++ getHowLong 50 (lastOf [("a", 10), ("b", 30)]).2 ++ " ("
        ++ (lastOf [("a", 10), ("b", 30)]).1 ++ ")" :=
  ((c7_no_players_header 50 [("a", 10), ("b", 30)]).1 (by decide)).2.2

theorem readsOf_read (f : String) (t : List Out) : readsOf (.read f :: t) = f :: readsOf t := rfl

theorem readsOf_err (e : String) (t : List Out) : readsOf (.errSend e :: t) = readsOf t := rfl

theorem readsOf_append (a b : List Out) : readsOf (a ++ b) = readsOf a ++ readsOf b :=
  List.filterMap_append a b _

theorem readsOf_events (evs : List McEvent) (t : List Out) :
    readsOf (evs.map .event ++ t) = readsOf t := by
  induction evs with
  | nil => rfl
  | cons e r ih => exact ih

theorem readsOf_events_nil (evs : List McEvent) : readsOf (evs.map .event) = [] := by
  induction evs with
  | nil => rfl
  | cons e r ih => exact ih

theorem backfill_reads (env : Env) (files : List String) :
    ∃ j, readsOf (backfill env files).1
        = (files.filter (fun f => pathExt f == gzipext)).take j ∧
      ((backfill env files).2 = true →
        readsOf (backfill env files).1 = files.filter (fun f => pathExt f == gzipext)) := by
  induction files with
  | nil => exact ⟨0, rfl, fun _ => rfl⟩
  | cons f rest ih =>
    obtain ⟨j, hr, ht⟩ := ih
    by_cases hf : pathExt f = gzipext
    · have hfb : (pathExt f == gzipext) = true := beq_iff_eq.mpr hf
      have hnn : ¬pathExt f ≠ gzipext := not_not_intro hf
      cases hrl : env.readLog f with
      | error e =>
        refine ⟨1, ?_, ?_⟩
        · simp [backfill, hnn, hrl, readsOf, List.filter_cons, hfb]
        · intro hok
          simp [backfill, hnn, hrl] at hok
      | ok evs =>
        rcases hb : backfill env rest with ⟨bt, bok⟩
        rw [hb] at hr ht
        refine ⟨j + 1, ?_, ?_⟩
        · simp only [backfill, hnn, if_neg, ite_false, hrl, hb]
          rw [readsOf_read, readsOf_events, hr]
          simp [List.filter_cons, hfb, List.take_succ_cons]
        · intro hok
          simp only [backfill, hnn, if_neg, ite_false, hrl, hb] at hok ⊢
          rw [readsOf_read, readsOf_events, ht hok]
          simp [List.filter_cons, hfb]
    · have hfb : (pathExt f == gzipext) = false := by
        cases hx : pathExt f == gzipext
        · rfl
        · exact absurd (eq_of_beq hx) hf
      simp only [backfill, if_pos hf, List.filter_cons, hfb]
      refine ⟨j, ?_, ?_⟩
      · simpa using hr
      · intro hok
        simpa using ht hok

theorem liveLoop_reads (env : Env) (notifs : List (Except String Unit)) :
    ∃ k, readsOf (liveLoop env notifs).1 = List.replicate k "latest.log" := by
  induction notifs with
  | nil =>
    cases hrl : env.readLog "latest.log" with
    | error e => exact ⟨1, by simp [liveLoop, hrl, readsOf]⟩
    | ok evs =>
      refine ⟨1, ?_⟩
      simp only [liveLoop, hrl]
      rw [readsOf_read, readsOf_events_nil]
      rfl
  | cons n rest ih =>
    obtain ⟨k, hk⟩ := ih
    cases hrl : env.readLog "latest.log" with
    | error e => exact ⟨1, by simp [liveLoop, hrl, readsOf]⟩
    | ok evs =>
      rcases hl : liveLoop env rest with ⟨lt, ltm⟩
      rw [hl] at hk
      dsimp only at hk
      cases n with
      | ok u =>
        refine ⟨k + 1, ?_⟩
        simp only [liveLoop, hrl, hl]
        rw [List.cons_append, readsOf_read, readsOf_events, hk]
        rfl
      | error e =>
        refine ⟨k + 1, ?_⟩
        simp only [liveLoop, hrl, hl]
        rw [List.cons_append, readsOf_read, readsOf_events, readsOf_err, hk]
        rfl

theorem liveLoop_term (env : Env) (notifs : List (Except String Unit)) :
    ((liveLoop env notifs).2 = .returned →
      ∃ e t, (liveLoop env notifs).1 = t ++ [.errSend e]) ∧
    (liveLoop env notifs).2 ≠ .fatalled := by
  induction notifs with
  | nil =>
    cases hrl : env.readLog "latest.log" with
    | error e =>
      refine ⟨fun _ => ⟨e, [.read "latest.log"], ?_⟩, ?_⟩
      · simp [liveLoop, hrl]
      · simp [liveLoop, hrl]
    | ok evs =>
      refine ⟨fun h => ?_, ?_⟩
      · simp [liveLoop, hrl] at h
      · simp [liveLoop, hrl]
  | cons n rest ih =>
    cases hrl : env.readLog "latest.log" with
    | error e =>
      refine ⟨fun _ => ⟨e, [.read "latest.log"], ?_⟩, ?_⟩
      · simp [liveLoop, hrl]
      · simp [liveLoop, hrl]
    | ok evs =>
      rcases hl : liveLoop env rest with ⟨lt, ltm⟩
      rw [hl] at ih
      dsimp only at ih
      cases n with
      | ok u =>
        refine ⟨fun h => ?_, ?_⟩
        · have hret : ltm = .returned := by simpa [liveLoop, hrl, hl] using h
          obtain ⟨e, t, htr⟩ := ih.1 hret
          refine ⟨e, (Out.read "latest.log" :: evs.map .event) ++ t, ?_⟩
          simp only [liveLoop, hrl, hl]
          rw [htr]
          simp only [List.cons_append, List.append_assoc]
        · simp only [liveLoop, hrl, hl]
          exact ih.2
      | error e2 =>
        refine ⟨fun h => ?_, ?_⟩
        · have hret : ltm = .returned := by simpa [liveLoop, hrl, hl] using h
          obtain ⟨e, t, htr⟩ := ih.1 hret
          refine ⟨e, (Out.read "latest.log" :: evs.map .event) ++ (.errSend e2 :: t), ?_⟩
          simp only [liveLoop, hrl, hl]
          rw [htr]
          simp only [List.cons_append, List.append_assoc]
        · simp only [liveLoop, hrl, hl]
          exact ih.2

theorem backfill_false (env : Env) (files : List String) :
    (backfill env files).2 = false →
      ∃ e t, (backfill env files).1 = t ++ [.errSend e] := by
  induction files with
  | nil =>
    intro h
    cases h
  | cons f rest ih =>
    intro h
    by_cases hf : pathExt f = gzipext
    · have hnn : ¬pathExt f ≠ gzipext := not_not_intro hf
      cases hrl : env.readLog f with
      | error e =>
        refine ⟨e, [.read f], ?_⟩
        simp [backfill, hnn, hrl]
      | ok evs =>
        rcases hb : backfill env rest with ⟨bt, bok⟩
        simp only [backfill, hnn, if_neg, ite_false, hrl, hb] at h ⊢
        obtain ⟨e, t, htr⟩ := ih (by rw [hb]; exact h)
        rw [hb] at htr
        dsimp only at htr
        refine ⟨e, .read f :: (evs.map .event ++ t), ?_⟩
        rw [htr, List.cons_append, ← List.append_assoc]
    · simp only [backfill, if_pos hf] at h ⊢
      exact ih h

theorem extChars_gz_iff (l : List Char) :
    extChars l = ['.', 'g', 'z'] ↔ List.IsSuffix ['.', 'g', 'z'] l := by
  induction l with
  | nil =>
    constructor
    · intro h
      cases h
    · intro h
      have := List.IsSuffix.length_le h
      simp at this
  | cons c rest ih =>
    constructor
    · intro h
      rw [extChars] at h
      cases hr : extChars rest with
      | nil =>
        rw [hr] at h
        dsimp only at h
        by_cases hc : c = '.'
        · rw [if_pos hc] at h
          rw [h]
        · rw [if_neg hc] at h
          cases h
      | cons d es =>
        rw [hr] at h
        dsimp only at h
        have hsuf : List.IsSuffix ['.', 'g', 'z'] rest := ih.mp (hr.trans h)
        exact hsuf.trans (List.suffix_cons c rest)
    · intro h
      rcases List.suffix_cons_iff.mp h with heq | hsuf
      · have hc : c = '.' := by
          injection heq with h1 _
          exact h1.symm
        have hrest : rest = ['g', 'z'] := by
          injection heq with _ h2
          exact h2.symm
        subst hc
        subst hrest
        decide
      · have hext : extChars rest = ['.', 'g', 'z'] := ih.mpr hsuf
        rw [extChars, hext]

theorem pathExt_gz_iff (s : String) :
    (pathExt s == gzipext) = true ↔ List.IsSuffix ['.', 'g', 'z'] s.data := by
  rw [beq_iff_eq]
  constructor
  · intro h
    have hdata : extChars s.data = ['.', 'g', 'z'] := congrArg String.data h
    exact (extChars_gz_iff s.data).mp hdata
  · intro h
    show String.mk (extChars s.data) = String.mk ['.', 'g', 'z']
    rw [(extChars_gz_iff s.data).mpr h]

/-- C3 counterexample: when establishing the file watch fails, `setupWatcher`
calls `log.Fatal`: the process dies without the error ever being sent on the
error channel, and the goroutine does not return. -/
theorem c3_counterexample :
    mcwho ⟨.ok (), .error "inotify: watch failed", .ok [], fun _ => .ok []⟩ []
        = ([.fatal "inotify: watch failed"], .fatalled) ∧
    Out.errSend "inotify: watch failed"
        ∉ (mcwho ⟨.ok (), .error "inotify: watch failed", .ok [], fun _ => .ok []⟩ []).1 := by
  decide

/-- C3 (amended): open, decompress and directory-listing failures are sent on
the error channel as the goroutine's last act before it returns; but a failure
to create or establish the file watch terminates the whole process via
`log.Fatal`, bypassing the error channel. -/
theorem c3_fatal_and_channel (env : Env) (notifs : List (Except String Unit)) :
    ((mcwho env notifs).2 = .returned →
      ∃ e t, (mcwho env notifs).1 = t ++ [.errSend e]) ∧
    ((mcwho env notifs).2 = .fatalled →
      ∃ e, (mcwho env notifs).1 = [.fatal e] ∧ setupWatcher env = some e) := by
  cases hsw : setupWatcher env with
  | some e =>
    refine ⟨fun h => ?_, fun h => ⟨e, by simp [mcwho, hsw], rfl⟩⟩
    simp [mcwho, hsw] at h
  | none =>
    cases hrd : env.readDir with
    | error e =>
      refine ⟨fun h => ⟨e, [], by simp [mcwho, hsw, hrd]⟩, fun h => ?_⟩
      simp [mcwho, hsw, hrd] at h
    | ok files =>
      rcases hb : backfill env files with ⟨bt, bok⟩
      cases bok with
      | false =>
        refine ⟨fun h => ?_, fun h => ?_⟩
        · obtain ⟨e, t, htr⟩ := backfill_false env files (by rw [hb])
          rw [hb] at htr
          dsimp only at htr
          exact ⟨e, t, by simp [mcwho, hsw, hrd, hb, htr]⟩
        · simp [mcwho, hsw, hrd, hb] at h
      | true =>
        rcases hl : liveLoop env notifs with ⟨lt, ltm⟩
        have hterm := liveLoop_term env notifs
        rw [hl] at hterm
        dsimp only at hterm
        refine ⟨fun h => ?_, fun h => ?_⟩
        · have hret : ltm = .returned := by simpa [mcwho, hsw, hrd, hb, hl] using h
          obtain ⟨e, t, htr⟩ := hterm.1 hret
          refine ⟨e, bt ++ t, ?_⟩
          simp only [mcwho, hsw, hrd, hb, hl, if_true]
          rw [htr]
          simp [List.append_assoc]
        · have : ltm = .fatalled := by simpa [mcwho, hsw, hrd, hb, hl] using h
          exact absurd this hterm.2

theorem c3_fatal_and_channel_witness :
    ∃ e t, (mcwho ⟨.ok (), .ok (), .error "open logs: permission denied",
        fun _ => .ok []⟩ []).1 = t ++ [.errSend e] :=
  (c3_fatal_and_channel ⟨.ok (), .ok (), .error "open logs: permission denied",
      fun _ => .ok []⟩ []).1 (by decide)

/-- A directory whose name-sorted listing is not embedded-date-sorted. -/
def envTwoArchives : Env :=
  ⟨.ok (), .ok (), .ok ["a-2014-01-01.log.gz", "b-2013-01-01.log.gz"],
   fun _ => .ok []⟩

/-- C4 counterexample: with archives `a-2014-01-01.log.gz` and
`b-2013-01-01.log.gz` (listed in `ReadDir`'s filename order), the file whose
embedded date is 2014-01-01 is processed before the one dated 2013-01-01,
although the latter is older. -/
theorem c4_counterexample :
    readsOf (mcwho envTwoArchives []).1
        = ["a-2014-01-01.log.gz", "b-2013-01-01.log.gz", "latest.log"] ∧
    findDate "a-2014-01-01.log.gz" = some "2014-01-01" ∧
    findDate "b-2013-01-01.log.gz" = some "2013-01-01" ∧
    timeOfDate 2013 1 1 0 0 0 < timeOfDate 2014 1 1 0 0 0 := by
  decide

/-- C4 (amended): the backfill processes the archives in the lexicographic
filename order of the directory listing, restricted to `.gz` entries (this
equals embedded-date order only when the date leads the filename), and all of
them are read before the first read of the live file. -/
theorem c4_archives_listing_order (env : Env) (notifs : List (Except String Unit))
    (files : List String) (h1 : setupWatcher env = none)
    (h2 : env.readDir = .ok files) :
    ∃ j k, readsOf (mcwho env notifs).1
        = (files.filter (fun f => pathExt f == gzipext)).take j
          ++ List.replicate k "latest.log"
      ∧ (0 < k → (files.filter (fun f => pathExt f == gzipext)).take j
          = files.filter (fun f => pathExt f == gzipext))
      ∧ (List.Pairwise (fun a b => a ≤ b) files →
          List.Pairwise (fun a b => a ≤ b)
            ((files.filter (fun f => pathExt f == gzipext)).take j)) := by
  obtain ⟨j, hr, ht⟩ := backfill_reads env files
  rcases hb : backfill env files with ⟨bt, bok⟩
  rw [hb] at hr ht
  dsimp only at hr ht
  have hpair : List.Pairwise (fun a b => a ≤ b) files →
      List.Pairwise (fun a b => a ≤ b)
        ((files.filter (fun f => pathExt f == gzipext)).take j) := by
    intro hp
    refine List.Pairwise.sublist ?_ hp
    exact List.Sublist.trans (List.take_sublist _ _) (List.filter_sublist _)
  cases bok with
  | false =>
    refine ⟨j, 0, ?_, fun hk => absurd hk (Nat.lt_irrefl 0), hpair⟩
    simp only [mcwho, h1, h2, hb, List.replicate, List.append_nil]
    exact hr
  | true =>
    rcases hl : liveLoop env notifs with ⟨lt, ltm⟩
    obtain ⟨k, hk⟩ := liveLoop_reads env notifs
    rw [hl] at hk
    dsimp only at hk
    refine ⟨j, k, ?_, fun _ => hr.symm.trans (ht rfl), hpair⟩
    simp only [mcwho, h1, h2, hb, hl, if_true]
    rw [readsOf_append, hr, hk]

theorem c4_archives_listing_order_witness :
    ∃ j k, readsOf (mcwho envTwoArchives []).1
        = ((["a-2014-01-01.log.gz", "b-2013-01-01.log.gz"] : List String).filter
            (fun f => pathExt f == gzipext)).take j
          ++ List.replicate k "latest.log"
      ∧ (0 < k → ((["a-2014-01-01.log.gz", "b-2013-01-01.log.gz"] : List String).filter
            (fun f => pathExt f == gzipext)).take j
          = (["a-2014-01-01.log.gz", "b-2013-01-01.log.gz"] : List String).filter
            (fun f => pathExt f == gzipext))
      ∧ (List.Pairwise (fun a b => a ≤ b)
            (["a-2014-01-01.log.gz", "b-2013-01-01.log.gz"] : List String) →
          List.Pairwise (fun a b => a ≤ b)
            (((["a-2014-01-01.log.gz", "b-2013-01-01.log.gz"] : List String).filter
              (fun f => pathExt f == gzipext)).take j)) :=
  c4_archives_listing_order envTwoArchives [] _ (by decide) (by rfl)

/-- C10: during backfill a directory entry is read exactly when its name ends
in `.gz` (every other entry is skipped), and the only plain file ever read is
`latest.log`. -/
theorem c10_gz_backfill (env : Env) (notifs : List (Except String Unit))
    (files : List String) (h1 : setupWatcher env = none)
    (h2 : env.readDir = .ok files) :
    (∀ f, f ∈ readsOf (mcwho env notifs).1 →
      (f ∈ files ∧ List.IsSuffix ['.', 'g', 'z'] f.data) ∨ f = "latest.log") ∧
    ((backfill env files).2 = true →
      ∀ f, f ∈ files → List.IsSuffix ['.', 'g', 'z'] f.data →
        f ∈ readsOf (mcwho env notifs).1) := by
  obtain ⟨j, hr, ht⟩ := backfill_reads env files
  rcases hb : backfill env files with ⟨bt, bok⟩
  rw [hb] at hr ht
  dsimp only at hr ht
  cases bok with
  | false =>
    constructor
    · intro f hf
      rw [show mcwho env notifs = (bt, .returned) from by
        simp [mcwho, h1, h2, hb]] at hf
      dsimp only at hf
      rw [hr] at hf
      have hfil : f ∈ files.filter (fun f => pathExt f == gzipext) :=
        (List.take_sublist _ _).subset hf
      have := List.mem_filter.mp hfil
      exact Or.inl ⟨this.1, (pathExt_gz_iff f).mp this.2⟩
    · intro hok
      cases hok
  | true =>
    rcases hl : liveLoop env notifs with ⟨lt, ltm⟩
    obtain ⟨k, hk⟩ := liveLoop_reads env notifs
    rw [hl] at hk
    dsimp only at hk
    have htrace : readsOf (mcwho env notifs).1
        = files.filter (fun f => pathExt f == gzipext)
          ++ List.replicate k "latest.log" := by
      simp only [mcwho, h1, h2, hb, hl, if_true]
      rw [readsOf_append, hk, ht rfl]
    constructor
    · intro f hf
      rw [htrace, List.mem_append] at hf
      rcases hf with hf | hf
      · have := List.mem_filter.mp hf
        exact Or.inl ⟨this.1, (pathExt_gz_iff f).mp this.2⟩
      · exact Or.inr (List.eq_of_mem_replicate hf)
    · intro _ f hmem hsuf
      rw [htrace, List.mem_append]
      exact Or.inl (List.mem_filter.mpr ⟨hmem, (pathExt_gz_iff f).mpr hsuf⟩)

theorem c10_gz_backfill_witness :
    "a-2014-01-01.log.gz" ∈ readsOf (mcwho envTwoArchives []).1 :=
  (c10_gz_backfill envTwoArchives [] ["a-2014-01-01.log.gz", "b-2013-01-01.log.gz"]
      (by decide) (by rfl)).2 (by decide) "a-2014-01-01.log.gz" (by decide) (by decide)

end Mcwho
